import Mathlib

/-!
Formal model of the Bacon-Shor stabilizer-tracking tool
(`src/Visulization_tool/BaconShorViz_Interactive.py`, with the prototype
`src/Visulization_tool/BaconShorViz_Initial.py` modelled separately where a
claim compares the two).

A Python `Stabilizer` holds `qubits_ops : {qubit_index: 'X'|'Y'|'Z'}`, a sparse
dictionary over the qubit ids `1..(rows+1)*(cols+1)` of the lattice.  We embed
such a dictionary as a total function `Fin n → Pauli` over the grid's qubit
indices (0-based: index `q` stands for qubit id `q+1`), with `Pauli.I` standing
for "key absent".  Dictionary value-equality is then function equality.
Python `set`s of stabilizers are embedded as duplicate-free lists kept in
insertion order; iteration order over a Python set is arbitrary, and the
insertion order used here is one admissible instance of it.  The `while`
loops of `adjust_stabilizers` are embedded with explicit fuel; the fuel
`length + 1` supplied below is sufficient because every combination step
strictly shrinks the working list (proved as claim C10).
-/

inductive Pauli where
  | I : Pauli
  | X : Pauli
  | Y : Pauli
  | Z : Pauli
deriving DecidableEq

set_option maxRecDepth 40000 in
set_option maxRecDepth 40000 in
set_option maxRecDepth 40000 in
/-- The qubit dictionary of a `Stabilizer` object: `Pauli.I` means the qubit
is absent from `qubits_ops`. -/
abbrev Stabilizer (n : ℕ) : Type := Fin n → Pauli

namespace Stabilizer

/-- One step of `Stabilizer.multiply`'s dictionary merge: `a` is this
stabilizer's entry for a qubit (possibly absent = `I`), `b` the other's.
Matching entries cancel (`X*X = I, Z*Z = I`), differing non-identity entries
give `Y`, and an entry present on one side only is carried over. -/
def mulop : Pauli → Pauli → Pauli
  | a, Pauli.I => a
  | Pauli.I, b => b
  | a, b => if a = b then Pauli.I else Pauli.Y

/-- `Stabilizer.multiply`. -/
def multiply {n : ℕ} (s t : Stabilizer n) : Stabilizer n :=
  fun q => mulop (s q) (t q)

/-- `Stabilizer.is_trivial`: the dictionary is empty. -/
def is_trivial {n : ℕ} (s : Stabilizer n) : Bool :=
  decide (∀ q, s q = Pauli.I)

/-- The list of qubits carrying a non-identity entry (the dictionary keys,
in ascending qubit order). -/
def support {n : ℕ} (s : Stabilizer n) : List (Fin n) :=
  (List.finRange n).filter (fun q => decide (s q ≠ Pauli.I))

/-- `len(s.qubits_ops)`: the number of qubits in the support. -/
def weight {n : ℕ} (s : Stabilizer n) : ℕ := (support s).length

/-- `Stabilizer.commutes_with`: count the measured qubits on which this
stabilizer carries a non-identity entry different from the measurement type;
the operators commute iff that count is even. -/
def commutes_with {n : ℕ} (s : Stabilizer n) (qubits : List (Fin n))
    (ty : Pauli) : Bool :=
  (qubits.countP (fun q => decide (s q ≠ Pauli.I ∧ s q ≠ ty))) % 2 == 0

/-- `list(s.qubits_ops.values())[0]`: the entry of the first support qubit
(`Pauli.I` for the trivial stabilizer, which the code never queries). -/
def stab_type {n : ℕ} (s : Stabilizer n) : Pauli :=
  match support s with
  | [] => Pauli.I
  | q :: _ => s q

/-- `set(r.qubits_ops.items()).issubset(set(g.qubits_ops.items()))`. -/
def items_subset {n : ℕ} (r g : Stabilizer n) : Bool :=
  decide (∀ q, r q ≠ Pauli.I → g q = r q)

/-- Build a stabilizer from an explicit association list of
(1-based qubit id, symbol) pairs; used only to name concrete stabilizers in
the theorems below. -/
def ofList (n : ℕ) (l : List (ℕ × Pauli)) : Stabilizer n :=
  fun q =>
    match l.find? (fun p => p.1 == q.val + 1) with
    | some p => p.2
    | none => Pauli.I

end Stabilizer

namespace BaconShorCode

/-- `self.num_qubits = (rows + 1) * (cols + 1)`. -/
def num_qubits (rows cols : ℕ) : ℕ := (rows + 1) * (cols + 1)

/-- `self.grid[i, j]`, the qubit id stored at row `i`, column `j`
(`np.arange(1, num_qubits + 1).reshape(rows + 1, cols + 1)`). -/
def grid (cols i j : ℕ) : ℕ := i * (cols + 1) + j + 1

/-- The row-major list of grid coordinates, in the order `np.argwhere`
scans the array. -/
def coordList (rows cols : ℕ) : List (ℕ × ℕ) :=
  (List.range (rows + 1)).flatMap
    (fun i => (List.range (cols + 1)).map (fun j => (i, j)))

/-- `np.argwhere(self.grid == q)`: the first (and only) coordinate whose grid
entry equals `q`, if any. -/
def argwhere (rows cols q : ℕ) : Option (ℕ × ℕ) :=
  (coordList rows cols).find? (fun ij => grid cols ij.1 ij.2 == q)

/-- `BaconShorCode.is_valid_measurement`. -/
def is_valid_measurement (rows cols : ℕ) (p : ℕ × ℕ) : Bool × String :=
  match argwhere rows cols p.1, argwhere rows cols p.2 with
  | some pos1, some pos2 =>
    let row_diff := ((pos1.1 : ℤ) - (pos2.1 : ℤ)).natAbs
    let col_diff := ((pos1.2 : ℤ) - (pos2.2 : ℤ)).natAbs
    if (row_diff = 1 ∧ col_diff = 0) ∨ (row_diff = 0 ∧ col_diff = 1) then
      (true, "")
    else
      (false, "Qubits are not adjacent.")
  | _, _ => (false, "Qubit does not exist in the grid.")

/-- `BaconShorCode.get_measurement_type` (`X` for a vertical neighbour pair,
`Z` for a horizontal one).  The Python code indexes `np.argwhere(...)[0]` and
would raise on a qubit id outside the grid; the model returns `none` there,
a path never reached by the tool because only validated pairs are typed. -/
def get_measurement_type (rows cols : ℕ) (p : ℕ × ℕ) : Option Pauli :=
  match argwhere rows cols p.1, argwhere rows cols p.2 with
  | some pos1, some pos2 =>
    if ((pos1.1 : ℤ) - (pos2.1 : ℤ)).natAbs = 1 ∧ pos1.2 = pos2.2 then
      some Pauli.X
    else if ((pos1.2 : ℤ) - (pos2.2 : ℤ)).natAbs = 1 ∧ pos1.1 = pos2.1 then
      some Pauli.Z
    else
      none
  | _, _ => none

/-- `{q: meas_type for q in meas}`: the measurement stabilizer of a pair. -/
def measurement_term (rows cols : ℕ) (p : ℕ × ℕ) :
    Stabilizer (num_qubits rows cols) :=
  fun q =>
    if q.val + 1 = p.1 ∨ q.val + 1 = p.2 then
      (get_measurement_type rows cols p).getD Pauli.I
    else
      Pauli.I

/-- `BaconShorCode.get_qubit_position` for a qubit of the grid. -/
def get_qubit_position (rows cols : ℕ) (q : Fin (num_qubits rows cols)) :
    ℕ × ℕ :=
  (argwhere rows cols (q.val + 1)).getD (0, 0)

/-- `{self.get_qubit_position(q)[1] for q in stab.qubits_ops}`. -/
def cols_set (rows cols : ℕ) (s : Stabilizer (num_qubits rows cols)) :
    Finset ℕ :=
  ((Stabilizer.support s).map (fun q => (get_qubit_position rows cols q).2)).toFinset

/-- `{self.get_qubit_position(q)[0] for q in stab.qubits_ops}`. -/
def rows_set (rows cols : ℕ) (s : Stabilizer (num_qubits rows cols)) :
    Finset ℕ :=
  ((Stabilizer.support s).map (fun q => (get_qubit_position rows cols q).1)).toFinset

/-- The combination condition of `adjust_stabilizers`: same leading Pauli
type, and combined column span (for `Z`) or row span (for `X`) of size at
most 2. -/
def pair_ok (rows cols : ℕ) (s1 s2 : Stabilizer (num_qubits rows cols)) : Bool :=
  if Stabilizer.stab_type s1 = Stabilizer.stab_type s2 then
    match Stabilizer.stab_type s1 with
    | Pauli.Z => decide ((cols_set rows cols s1 ∪ cols_set rows cols s2).card ≤ 2)
    | Pauli.X => decide ((rows_set rows cols s1 ∪ rows_set rows cols s2).card ≤ 2)
    | _ => false
  else false

/-- The double scan of `adjust_stabilizers`: the first pair `(s1, s2)`, in
list order with `s1` before `s2`, that satisfies `pair_ok`. -/
def find_pair (rows cols : ℕ) :
    List (Stabilizer (num_qubits rows cols)) →
      Option (Stabilizer (num_qubits rows cols) × Stabilizer (num_qubits rows cols))
  | [] => none
  | s1 :: rest =>
    match rest.find? (fun s2 => pair_ok rows cols s1 s2) with
    | some s2 => some (s1, s2)
    | none => find_pair rows cols rest

/-- `set.add`: append an element unless an equal one is already present. -/
def insert_new {n : ℕ} (c : Stabilizer n) (l : List (Stabilizer n)) :
    List (Stabilizer n) :=
  if c ∈ l then l else l ++ [c]

/-- The `while changed` loop of `adjust_stabilizers`, with explicit fuel:
repeatedly find a combinable pair among the anti-commuting stabilizers `A`,
remove both from `A` and from the generator set, and re-add the product when
it is non-trivial (to `A` as well if it still anti-commutes with the
measurement).  Returns the remaining anti-commuting list and the updated
generator set. -/
def adjust_loop (rows cols : ℕ) (measQs : List (Fin (num_qubits rows cols)))
    (measT : Pauli) :
    ℕ → List (Stabilizer (num_qubits rows cols)) →
      List (Stabilizer (num_qubits rows cols)) →
      List (Stabilizer (num_qubits rows cols)) × List (Stabilizer (num_qubits rows cols))
  | 0, A, gens => (A, gens)
  | fuel + 1, A, gens =>
    match find_pair rows cols A with
    | none => (A, gens)
    | some (s1, s2) =>
      let gens1 := (gens.erase s1).erase s2
      let A1 := (A.erase s1).erase s2
      let c := s1.multiply s2
      if c.is_trivial then
        adjust_loop rows cols measQs measT fuel A1 gens1
      else
        let gens2 := insert_new c gens1
        let A2 := if c.commutes_with measQs measT then A1 else A1 ++ [c]
        adjust_loop rows cols measQs measT fuel A2 gens2

/-- One iteration of the outer loop of `adjust_stabilizers` for a single
measurement stabilizer: collect the anti-commuting generators, run the
combination loop, then discard every remaining anti-commuting generator. -/
def adjust_one (rows cols : ℕ) (gens : List (Stabilizer (num_qubits rows cols)))
    (meas : Stabilizer (num_qubits rows cols)) :
    List (Stabilizer (num_qubits rows cols)) :=
  let measQs := Stabilizer.support meas
  let measT := Stabilizer.stab_type meas
  let A0 := gens.filter
    (fun s => !(s.commutes_with measQs measT) && decide (s ≠ meas))
  let res := adjust_loop rows cols measQs measT (A0.length + 1) A0 gens
  res.1.foldl (fun g s => g.erase s) res.2

/-- `BaconShorCode.adjust_stabilizers` (refined, geometry-constrained
resolver of the interactive version). -/
def adjust_stabilizers (rows cols : ℕ)
    (gens : List (Stabilizer (num_qubits rows cols)))
    (measurement_stabilizers : List (Stabilizer (num_qubits rows cols))) :
    List (Stabilizer (num_qubits rows cols)) :=
  measurement_stabilizers.foldl (adjust_one rows cols) gens

/-- The sort key order of `simplify_stabilizers` (ascending weight). -/
def weight_le {n : ℕ} (a b : Stabilizer n) : Prop :=
  Stabilizer.weight a ≤ Stabilizer.weight b

instance {n : ℕ} : DecidableRel (@weight_le n) :=
  fun x y => Nat.decLe (Stabilizer.weight x) (Stabilizer.weight y)

instance {n : ℕ} : IsTotal (Stabilizer n) weight_le :=
  ⟨fun x y => Nat.le_total (Stabilizer.weight x) (Stabilizer.weight y)⟩

instance {n : ℕ} : IsTrans (Stabilizer n) weight_le :=
  ⟨fun _ _ _ h1 h2 => Nat.le_trans h1 h2⟩

/-- `BaconShorCode.simplify_stabilizers`: process the generators in
ascending-weight order; reduce each by every already-accepted generator whose
item set is contained in it, and keep the result when non-trivial. -/
def simplify_stabilizers {n : ℕ} (gens : List (Stabilizer n)) :
    List (Stabilizer n) :=
  let sorted_stabilizers := List.insertionSort weight_le gens
  sorted_stabilizers.foldl
    (fun acc stab =>
      let stab' := acc.foldl
        (fun g r => if Stabilizer.items_subset r g then g.multiply r else g) stab
      if stab'.is_trivial then acc else acc ++ [stab'])
    []

/-- The mutable state of a `BaconShorCode` object that the core algorithm
touches. -/
structure CodeState (rows cols : ℕ) where
  time_step : ℕ
  stabilizer_generators : List (Stabilizer (num_qubits rows cols))

/-- The freshly constructed `BaconShorCode` state. -/
def initState (rows cols : ℕ) : CodeState rows cols :=
  { time_step := 0, stabilizer_generators := [] }

/-- `BaconShorCode.update_stabilizers` of the interactive version: on the
first time step the generator set becomes the set of measurement terms;
afterwards the terms are unioned in, anti-commutation is resolved, and the
result is simplified. -/
def update_stabilizers (rows cols : ℕ) (st : CodeState rows cols)
    (measurements : List (ℕ × ℕ)) : CodeState rows cols :=
  let measurement_stabilizers := measurements.map (measurement_term rows cols)
  if st.time_step = 1 then
    { st with
      stabilizer_generators :=
        measurement_stabilizers.foldl (fun g m => insert_new m g) [] }
  else
    let gens1 := measurement_stabilizers.foldl (fun g m => insert_new m g)
      st.stabilizer_generators
    let gens2 := adjust_stabilizers rows cols gens1 measurement_stabilizers
    { st with stabilizer_generators := simplify_stabilizers gens2 }

/-- `BaconShorCode.run_time_step` of the interactive version: advance the
step counter, drop the invalid pairs of the batch, and update the
generator set from the remaining ones. -/
def run_time_step (rows cols : ℕ) (st : CodeState rows cols)
    (measurements : List (ℕ × ℕ)) : CodeState rows cols :=
  let stepped : CodeState rows cols :=
    { st with time_step := st.time_step + 1 }
  let valid_measurements :=
    measurements.filter (fun p => (is_valid_measurement rows cols p).1)
  update_stabilizers rows cols stepped valid_measurements

end BaconShorCode

namespace Initial

open BaconShorCode

/-- The anti-commuting generator list recomputed at each pass of the
prototype's `adjust_stabilizers` (`BaconShorViz_Initial.py`). -/
def anti_commuting (rows cols : ℕ)
    (gens : List (Stabilizer (num_qubits rows cols)))
    (meas : Stabilizer (num_qubits rows cols)) :
    List (Stabilizer (num_qubits rows cols)) :=
  gens.filter (fun s =>
    !(s.commutes_with (Stabilizer.support meas) (Stabilizer.stab_type meas))
      && decide (s ≠ meas))

/-- The prototype's `while len(anti) >= 2` loop: pop the last two
anti-commuting stabilizers (unconditionally, with no type or span check),
replace them by their product when non-trivial, and recompute; a single
leftover anti-commuting stabilizer is discarded. -/
def adjust_loop (rows cols : ℕ) (meas : Stabilizer (num_qubits rows cols)) :
    ℕ → List (Stabilizer (num_qubits rows cols)) →
      List (Stabilizer (num_qubits rows cols))
  | 0, gens => gens
  | fuel + 1, gens =>
    match (anti_commuting rows cols gens meas).reverse with
    | s1 :: s2 :: _ =>
      let c := s1.multiply s2
      let gens1 := (gens.erase s1).erase s2
      let gens2 := if c.is_trivial then gens1 else insert_new c gens1
      Initial.adjust_loop rows cols meas fuel gens2
    | [s] => gens.erase s
    | [] => gens

/-- The prototype's `adjust_stabilizers`. -/
def adjust_stabilizers (rows cols : ℕ)
    (gens : List (Stabilizer (num_qubits rows cols)))
    (measurement_stabilizers : List (Stabilizer (num_qubits rows cols))) :
    List (Stabilizer (num_qubits rows cols)) :=
  measurement_stabilizers.foldl
    (fun g m => Initial.adjust_loop rows cols m (g.length + 1) g) gens

/-- The prototype's `update_stabilizers`: same bootstrap and union, but the
unconditional resolver and no simplification pass. -/
def update_stabilizers (rows cols : ℕ) (st : CodeState rows cols)
    (measurements : List (ℕ × ℕ)) : CodeState rows cols :=
  let measurement_stabilizers := measurements.map (measurement_term rows cols)
  if st.time_step = 1 then
    { st with
      stabilizer_generators :=
        measurement_stabilizers.foldl (fun g m => insert_new m g) [] }
  else
    let gens1 := measurement_stabilizers.foldl (fun g m => insert_new m g)
      st.stabilizer_generators
    { st with
      stabilizer_generators :=
        Initial.adjust_stabilizers rows cols gens1 measurement_stabilizers }

/-- The prototype's `run_time_step`. -/
def run_time_step (rows cols : ℕ) (st : CodeState rows cols)
    (measurements : List (ℕ × ℕ)) : CodeState rows cols :=
  let stepped : CodeState rows cols :=
    { st with time_step := st.time_step + 1 }
  let valid_measurements :=
    measurements.filter (fun p => (is_valid_measurement rows cols p).1)
  Initial.update_stabilizers rows cols stepped valid_measurements

end Initial

section SpecLevel

open BaconShorCode

/-- A qubit id belongs to the lattice. -/
def qubit_in_grid (rows cols q : ℕ) : Prop :=
  1 ≤ q ∧ q ≤ num_qubits rows cols

instance (rows cols q : ℕ) : Decidable (qubit_in_grid rows cols q) :=
  instDecidableAnd

/-- Row coordinate of a qubit id under the row-major layout. -/
def id_row (cols q : ℕ) : ℕ := (q - 1) / (cols + 1)

/-- Column coordinate of a qubit id under the row-major layout. -/
def id_col (cols q : ℕ) : ℕ := (q - 1) % (cols + 1)

/-- Vertical neighbours: one row apart in the same column. -/
def vertical_pair (cols a b : ℕ) : Prop :=
  ((id_row cols a : ℤ) - (id_row cols b : ℤ)).natAbs = 1
    ∧ id_col cols a = id_col cols b

/-- Horizontal neighbours: one column apart in the same row. -/
def horizontal_pair (cols a b : ℕ) : Prop :=
  ((id_col cols a : ℤ) - (id_col cols b : ℤ)).natAbs = 1
    ∧ id_row cols a = id_row cols b

/-- Lattice adjacency of two qubit ids. -/
def lattice_adjacent (cols a b : ℕ) : Prop :=
  vertical_pair cols a b ∨ horizontal_pair cols a b

instance (cols a b : ℕ) : Decidable (vertical_pair cols a b) := instDecidableAnd

instance (cols a b : ℕ) : Decidable (horizontal_pair cols a b) := instDecidableAnd

instance (cols a b : ℕ) : Decidable (lattice_adjacent cols a b) := instDecidableOr

end SpecLevel

section Scenarios

open BaconShorCode

/-- C1 scenario, step 1: the four horizontal pairs on the 5×5-vertex
lattice (`rows = cols = 4`). -/
def c1_state1 : CodeState 4 4 :=
  run_time_step 4 4 (initState 4 4) [(1, 2), (3, 4), (6, 7), (8, 9)]

/-- C1 scenario, step 2: the four vertical pairs. -/
def c1_state2 : CodeState 4 4 :=
  run_time_step 4 4 c1_state1 [(1, 6), (2, 7), (3, 8), (4, 9)]

def n25 : ℕ := num_qubits 4 4

def z12 : Stabilizer n25 := Stabilizer.ofList n25 [(1, Pauli.Z), (2, Pauli.Z)]
def z34 : Stabilizer n25 := Stabilizer.ofList n25 [(3, Pauli.Z), (4, Pauli.Z)]
def z67 : Stabilizer n25 := Stabilizer.ofList n25 [(6, Pauli.Z), (7, Pauli.Z)]
def z89 : Stabilizer n25 := Stabilizer.ofList n25 [(8, Pauli.Z), (9, Pauli.Z)]
def x16 : Stabilizer n25 := Stabilizer.ofList n25 [(1, Pauli.X), (6, Pauli.X)]
def x27 : Stabilizer n25 := Stabilizer.ofList n25 [(2, Pauli.X), (7, Pauli.X)]
def x38 : Stabilizer n25 := Stabilizer.ofList n25 [(3, Pauli.X), (8, Pauli.X)]
def x49 : Stabilizer n25 := Stabilizer.ofList n25 [(4, Pauli.X), (9, Pauli.X)]

def z1267 : Stabilizer n25 :=
  Stabilizer.ofList n25 [(1, Pauli.Z), (2, Pauli.Z), (6, Pauli.Z), (7, Pauli.Z)]

def z3489 : Stabilizer n25 :=
  Stabilizer.ofList n25 [(3, Pauli.Z), (4, Pauli.Z), (8, Pauli.Z), (9, Pauli.Z)]

/-- C6 scenario, refined resolver: two horizontal pairs sharing qubit 3,
then the vertical pair (3, 8). -/
def c6_refined : CodeState 4 4 :=
  run_time_step 4 4 (run_time_step 4 4 (initState 4 4) [(2, 3), (3, 4)]) [(3, 8)]

/-- C6 scenario, prototype resolver, same schedule. -/
def c6_prototype : CodeState 4 4 :=
  Initial.run_time_step 4 4
    (Initial.run_time_step 4 4 (initState 4 4) [(2, 3), (3, 4)]) [(3, 8)]

def z24 : Stabilizer n25 := Stabilizer.ofList n25 [(2, Pauli.Z), (4, Pauli.Z)]

def x38term : Stabilizer n25 := Stabilizer.ofList n25 [(3, Pauli.X), (8, Pauli.X)]

/-- C3 counterexample data (the lattice is irrelevant to
`simplify_stabilizers`; four qubits suffice). -/
def c3b : Stabilizer 4 := Stabilizer.ofList 4 [(1, Pauli.X), (2, Pauli.X)]

def c3c : Stabilizer 4 := Stabilizer.ofList 4 [(3, Pauli.X), (4, Pauli.X)]

def c3a : Stabilizer 4 :=
  Stabilizer.ofList 4 [(1, Pauli.X), (3, Pauli.X), (4, Pauli.X)]

def c3L : List (Stabilizer 4) := [c3b, c3c, c3a]

def c3x2 : Stabilizer 4 := Stabilizer.ofList 4 [(2, Pauli.X)]

/-- C2 concrete stabilizer `{1: Y, 2: Z}` on two qubits. -/
def c2s : Stabilizer 2 := Stabilizer.ofList 2 [(1, Pauli.Y), (2, Pauli.Z)]

/-- C2 concrete stabilizer `{1: Z, 2: Z}` on two qubits. -/
def c2t : Stabilizer 2 := Stabilizer.ofList 2 [(1, Pauli.Z), (2, Pauli.Z)]

/-- Concrete witness data for `C2_commutant_closed_no_Y`. -/
def c2w : Stabilizer 2 := Stabilizer.ofList 2 [(1, Pauli.X), (2, Pauli.X)]

end Scenarios

section MultiplyAlgebra

open Stabilizer

lemma mulop_comm (a b : Pauli) : mulop a b = mulop b a := by
  cases a <;> cases b <;> rfl

lemma mulop_self (a : Pauli) : mulop a a = Pauli.I := by
  cases a <;> rfl

/-- C5: `Stabilizer.multiply` is commutative (the resulting qubit-to-symbol
mappings are equal as values) and self-inverse (`s.multiply(s)` has empty
support). -/
theorem C5_multiply_comm_self_inverse {n : ℕ} (s t : Stabilizer n) :
    s.multiply t = t.multiply s ∧ (s.multiply s).is_trivial = true := by
  constructor
  · funext q
    exact mulop_comm (s q) (t q)
  · simp only [is_trivial, multiply, decide_eq_true_eq]
    intro q
    exact mulop_self (s q)

lemma countP_parity_of_xor {α : Type} (l : List α) (p1 p2 p3 : α → Bool)
    (h : ∀ x, p3 x = xor (p1 x) (p2 x)) :
    (l.countP p3) % 2 = (l.countP p1 + l.countP p2) % 2 := by
  induction l with
  | nil => rfl
  | cons a l ih =>
    simp only [List.countP_cons, h a]
    cases h1 : p1 a <;> cases h2 : p2 a <;> simp <;> omega

lemma mulop_anti_xor (ty a b : Pauli) (hty : ty = Pauli.X ∨ ty = Pauli.Z)
    (ha : a ≠ Pauli.Y) (hb : b ≠ Pauli.Y) :
    decide (mulop a b ≠ Pauli.I ∧ mulop a b ≠ ty)
      = xor (decide (a ≠ Pauli.I ∧ a ≠ ty)) (decide (b ≠ Pauli.I ∧ b ≠ ty)) := by
  rcases hty with h | h <;> subst h <;> cases a <;> cases b <;>
    first
      | exact absurd rfl ha
      | exact absurd rfl hb
      | decide

/-- C2 (amended): for terms whose entries avoid `Y` and a measurement type in
`{X, Z}`, the commutant is closed under `multiply`: if both `s` and `t`
commute with the measurement `(Q, ty)`, so does `s.multiply(t)`. -/
theorem C2_commutant_closed_no_Y {n : ℕ} (s t : Stabilizer n)
    (qubits : List (Fin n)) (ty : Pauli)
    (hty : ty = Pauli.X ∨ ty = Pauli.Z)
    (hs : ∀ q, s q ≠ Pauli.Y) (ht : ∀ q, t q ≠ Pauli.Y)
    (hcs : s.commutes_with qubits ty = true)
    (hct : t.commutes_with qubits ty = true) :
    (s.multiply t).commutes_with qubits ty = true := by
  simp only [commutes_with, beq_iff_eq] at hcs hct ⊢
  have hx : (qubits.countP
      (fun q => decide ((s.multiply t) q ≠ Pauli.I ∧ (s.multiply t) q ≠ ty))) % 2
      = ((qubits.countP (fun q => decide (s q ≠ Pauli.I ∧ s q ≠ ty)))
        + (qubits.countP (fun q => decide (t q ≠ Pauli.I ∧ t q ≠ ty)))) % 2 := by
    apply countP_parity_of_xor
    intro q
    exact mulop_anti_xor ty (s q) (t q) hty (hs q) (ht q)
  omega

/-- C2 (counterexample): with `s = {1:Y, 2:Z}`, `t = {1:Z, 2:Z}` and the
measurement `({1,2}, X)`, both `s` and `t` commute with the measurement but
`s.multiply(t) = {1:Y}` does not: the commutant is not closed once `Y`
entries are allowed. -/
theorem C2_counterexample :
    c2s.commutes_with [0, 1] Pauli.X = true
      ∧ c2t.commutes_with [0, 1] Pauli.X = true
      ∧ (c2s.multiply c2t).commutes_with [0, 1] Pauli.X = false := by
  decide

/-- Witness: `C2_commutant_closed_no_Y` applied at `s = t = {1:X, 2:X}`,
`Q = {1, 2}`, `ty = Z`. -/
theorem C2_commutant_closed_no_Y_witness :
    (c2w.multiply c2w).commutes_with [0, 1] Pauli.Z = true :=
  C2_commutant_closed_no_Y c2w c2w [0, 1] Pauli.Z (Or.inr rfl)
    (by decide) (by decide) (by decide) (by decide)

end MultiplyAlgebra

section Lattice

open BaconShorCode

lemma grid_coord (cols k : ℕ) :
    grid cols (k / (cols + 1)) (k % (cols + 1)) = k + 1 := by
  have h := Nat.div_add_mod' k (cols + 1)
  rw [grid]
  omega

lemma coordList_eq (rows cols : ℕ) :
    coordList rows cols
      = (List.range (num_qubits rows cols)).map
          (fun k => (k / (cols + 1), k % (cols + 1))) := by
  induction rows with
  | zero =>
    have h0 : num_qubits 0 cols = cols + 1 := by
      rw [num_qubits]
      ring
    have h1 : List.range 1 = [0] := rfl
    rw [coordList, h0]
    simp only [Nat.zero_add, h1, List.flatMap_cons, List.flatMap_nil,
      List.append_nil]
    apply List.map_congr_left
    intro j hj
    rw [List.mem_range] at hj
    rw [Nat.div_eq_of_lt hj, Nat.mod_eq_of_lt hj]
  | succ rows ih =>
    have hnum : num_qubits (rows + 1) cols = num_qubits rows cols + (cols + 1) := by
      rw [num_qubits, num_qubits]
      ring
    have hR : (List.range (num_qubits rows cols + (cols + 1))).map
          (fun k => (k / (cols + 1), k % (cols + 1)))
        = (List.range (num_qubits rows cols)).map
            (fun k => (k / (cols + 1), k % (cols + 1)))
          ++ (List.range (cols + 1)).map (fun j => (rows + 1, j)) := by
      rw [List.range_add, List.map_append, List.map_map]
      congr 1
      apply List.map_congr_left
      intro j hj
      rw [List.mem_range] at hj
      have hd : (num_qubits rows cols + j) / (cols + 1) = rows + 1 := by
        rw [num_qubits, Nat.add_comm, Nat.add_mul_div_right _ _ (Nat.succ_pos cols),
          Nat.div_eq_of_lt hj]
        omega
      have hm : (num_qubits rows cols + j) % (cols + 1) = j := by
        rw [num_qubits, Nat.add_comm, Nat.add_mul_mod_self_right, Nat.mod_eq_of_lt hj]
      simp [Function.comp, hd, hm]
    rw [coordList, List.range_succ, List.flatMap_append, ← coordList, ih, hnum, hR]
    congr 1
    simp only [List.flatMap_cons, List.flatMap_nil, List.append_nil]

lemma find?_range_id (N q : ℕ) (h1 : 1 ≤ q) (h2 : q ≤ N) :
    (List.range N).find? (fun k => k + 1 == q) = some (q - 1) := by
  induction N with
  | zero => omega
  | succ N ih =>
    rw [List.range_succ, List.find?_append]
    rcases Nat.lt_or_ge q (N + 1) with h | h
    · rw [ih (by omega)]
      rfl
    · have hq : q = N + 1 := by omega
      have hnone : (List.range N).find? (fun k => k + 1 == q) = none := by
        rw [List.find?_eq_none]
        intro k hk
        rw [List.mem_range] at hk
        simp only [beq_iff_eq]
        omega
      rw [hnone, Option.none_or]
      simp [List.find?, hq]

lemma find?_range_id_none (N q : ℕ) (h : ¬ (1 ≤ q ∧ q ≤ N)) :
    (List.range N).find? (fun k => k + 1 == q) = none := by
  rw [List.find?_eq_none]
  intro k hk
  rw [List.mem_range] at hk
  simp only [beq_iff_eq]
  omega

lemma argwhere_in_grid (rows cols q : ℕ) (h : qubit_in_grid rows cols q) :
    argwhere rows cols q
      = some ((q - 1) / (cols + 1), (q - 1) % (cols + 1)) := by
  obtain ⟨h1, h2⟩ := h
  rw [argwhere, coordList_eq, List.find?_map]
  have hp : ((fun ij : ℕ × ℕ => grid cols ij.1 ij.2 == q)
      ∘ fun k => (k / (cols + 1), k % (cols + 1))) = fun k => k + 1 == q := by
    funext k
    simp [Function.comp, grid_coord]
  rw [hp, find?_range_id (num_qubits rows cols) q h1 h2]
  rfl

lemma argwhere_not_in_grid (rows cols q : ℕ) (h : ¬ qubit_in_grid rows cols q) :
    argwhere rows cols q = none := by
  rw [argwhere, coordList_eq, List.find?_map]
  have hp : ((fun ij : ℕ × ℕ => grid cols ij.1 ij.2 == q)
      ∘ fun k => (k / (cols + 1), k % (cols + 1))) = fun k => k + 1 == q := by
    funext k
    simp [Function.comp, grid_coord]
  rw [hp, find?_range_id_none _ q (by rw [qubit_in_grid] at h; exact h)]
  rfl

lemma get_measurement_type_in_grid (rows cols a b : ℕ)
    (ha : qubit_in_grid rows cols a) (hb : qubit_in_grid rows cols b) :
    get_measurement_type rows cols (a, b)
      = if vertical_pair cols a b then some Pauli.X
        else if horizontal_pair cols a b then some Pauli.Z
        else none := by
  rw [get_measurement_type]
  rw [argwhere_in_grid rows cols a ha, argwhere_in_grid rows cols b hb]
  simp only [vertical_pair, horizontal_pair, id_row, id_col]

lemma vertical_pair_symm (cols a b : ℕ) :
    vertical_pair cols a b ↔ vertical_pair cols b a := by
  rw [vertical_pair, vertical_pair]
  constructor <;> rintro ⟨h1, h2⟩ <;> exact ⟨by omega, h2.symm⟩

lemma horizontal_pair_symm (cols a b : ℕ) :
    horizontal_pair cols a b ↔ horizontal_pair cols b a := by
  rw [horizontal_pair, horizontal_pair]
  constructor <;> rintro ⟨h1, h2⟩ <;> exact ⟨by omega, h2.symm⟩

lemma not_vertical_and_horizontal (cols a b : ℕ)
    (hv : vertical_pair cols a b) (hh : horizontal_pair cols a b) : False := by
  obtain ⟨hv1, hv2⟩ := hv
  obtain ⟨hh1, hh2⟩ := hh
  rw [hv2] at hh1
  simp at hh1

/-- C7: for qubit ids of the lattice, `get_measurement_type` is symmetric in
the pair, returns `none` exactly on non-adjacent pairs, and on adjacent pairs
returns `X` for vertical neighbours and `Z` for horizontal neighbours (so it
is never `none` on an adjacent pair). -/
theorem C7_edge_type_geometry (rows cols a b : ℕ)
    (ha : qubit_in_grid rows cols a) (hb : qubit_in_grid rows cols b) :
    get_measurement_type rows cols (a, b) = get_measurement_type rows cols (b, a)
    ∧ (get_measurement_type rows cols (a, b) = none ↔ ¬ lattice_adjacent cols a b)
    ∧ (vertical_pair cols a b → get_measurement_type rows cols (a, b) = some Pauli.X)
    ∧ (horizontal_pair cols a b → get_measurement_type rows cols (a, b) = some Pauli.Z) := by
  rw [get_measurement_type_in_grid rows cols a b ha hb,
    get_measurement_type_in_grid rows cols b a hb ha]
  refine ⟨?_, ?_, ?_, ?_⟩
  · by_cases hv : vertical_pair cols a b
    · rw [if_pos hv, if_pos ((vertical_pair_symm cols a b).mp hv)]
    · rw [if_neg hv, if_neg (fun hv' => hv ((vertical_pair_symm cols b a).mp hv'))]
      by_cases hh : horizontal_pair cols a b
      · rw [if_pos hh, if_pos ((horizontal_pair_symm cols a b).mp hh)]
      · rw [if_neg hh, if_neg (fun hh' => hh ((horizontal_pair_symm cols b a).mp hh'))]
  · by_cases hv : vertical_pair cols a b
    · rw [if_pos hv]
      simp [lattice_adjacent, hv]
    · rw [if_neg hv]
      by_cases hh : horizontal_pair cols a b
      · rw [if_pos hh]
        simp [lattice_adjacent, hh]
      · rw [if_neg hh]
        simp [lattice_adjacent, hv, hh]
  · intro hv
    rw [if_pos hv]
  · intro hh
    have hv : ¬ vertical_pair cols a b :=
      fun hv => not_vertical_and_horizontal cols a b hv hh
    rw [if_neg hv, if_pos hh]

/-- Witness: `C7_edge_type_geometry` at the horizontal pair `(1, 2)` of the
5×5-vertex lattice. -/
theorem C7_edge_type_geometry_witness :
    get_measurement_type 4 4 (1, 2) = get_measurement_type 4 4 (2, 1)
    ∧ (get_measurement_type 4 4 (1, 2) = none ↔ ¬ lattice_adjacent 4 1 2)
    ∧ (vertical_pair 4 1 2 → get_measurement_type 4 4 (1, 2) = some Pauli.X)
    ∧ (horizontal_pair 4 1 2 → get_measurement_type 4 4 (1, 2) = some Pauli.Z) :=
  C7_edge_type_geometry 4 4 1 2 (by decide) (by decide)

lemma adjacency_characterization (cols a b : ℕ) :
    ((((id_row cols a : ℤ) - id_row cols b).natAbs = 1
        ∧ ((id_col cols a : ℤ) - id_col cols b).natAbs = 0)
      ∨ (((id_row cols a : ℤ) - id_row cols b).natAbs = 0
        ∧ ((id_col cols a : ℤ) - id_col cols b).natAbs = 1))
      ↔ lattice_adjacent cols a b := by
  rw [lattice_adjacent, vertical_pair, horizontal_pair]
  constructor
  · rintro (⟨h1, h2⟩ | ⟨h1, h2⟩)
    · exact Or.inl ⟨h1, by omega⟩
    · exact Or.inr ⟨h2, by omega⟩
  · rintro (⟨h1, h2⟩ | ⟨h1, h2⟩)
    · exact Or.inl ⟨h1, by omega⟩
    · exact Or.inr ⟨by omega, h1⟩

/-- C9: per-pair validation of a submitted batch.  A pair is rejected with
the out-of-range message when either id is not a qubit of the lattice,
rejected with the non-adjacency message when both ids exist but are not
lattice-adjacent, and accepted otherwise; and a time step processes exactly
the accepted pairs of its batch — filtering the batch down to its accepted
pairs leaves the step's result unchanged, so rejected pairs contribute
nothing and do not abort the step. -/
theorem C9_validation_and_filtering (rows cols : ℕ) :
    (∀ a b : ℕ,
      is_valid_measurement rows cols (a, b)
        = if qubit_in_grid rows cols a ∧ qubit_in_grid rows cols b then
            if lattice_adjacent cols a b then (true, "")
            else (false, "Qubits are not adjacent.")
          else (false, "Qubit does not exist in the grid."))
    ∧ (∀ (st : CodeState rows cols) (batch : List (ℕ × ℕ)),
        run_time_step rows cols st batch
          = run_time_step rows cols st
              (batch.filter (fun p => (is_valid_measurement rows cols p).1))) := by
  constructor
  · intro a b
    by_cases hab : qubit_in_grid rows cols a ∧ qubit_in_grid rows cols b
    · obtain ⟨ha, hb⟩ := hab
      rw [is_valid_measurement]
      rw [argwhere_in_grid rows cols a ha, argwhere_in_grid rows cols b hb,
        if_pos (And.intro ha hb)]
      have hchar := adjacency_characterization cols a b
      rw [id_row, id_col, id_row, id_col] at hchar
      by_cases hadj : lattice_adjacent cols a b
      · rw [if_pos hadj]
        simp only []
        rw [if_pos (hchar.mpr hadj)]
      · rw [if_neg hadj]
        simp only []
        rw [if_neg (fun hx => hadj (hchar.mp hx))]
    · rw [if_neg hab, is_valid_measurement]
      rcases Decidable.not_and_iff_or_not.mp hab with h | h
      · rw [argwhere_not_in_grid rows cols a h]
      · rw [argwhere_not_in_grid rows cols b h]
        cases argwhere rows cols a <;> rfl
  · intro st batch
    rw [run_time_step, run_time_step, List.filter_filter]
    simp

end Lattice

section Bootstrap

open BaconShorCode

lemma mem_insert_new {n : ℕ} (m c : Stabilizer n) (l : List (Stabilizer n)) :
    m ∈ insert_new c l ↔ m ∈ l ∨ m = c := by
  rw [insert_new]
  by_cases hc : c ∈ l
  · rw [if_pos hc]
    constructor
    · exact fun h => Or.inl h
    · rintro (h | rfl)
      · exact h
      · exact hc
  · rw [if_neg hc]
    simp

lemma nodup_insert_new {n : ℕ} (c : Stabilizer n) (l : List (Stabilizer n))
    (h : l.Nodup) : (insert_new c l).Nodup := by
  rw [insert_new]
  by_cases hc : c ∈ l
  · rw [if_pos hc]
    exact h
  · rw [if_neg hc]
    simp [List.nodup_append, h, hc]

lemma mem_foldl_insert_new {n : ℕ} (terms : List (Stabilizer n)) :
    ∀ (acc : List (Stabilizer n)) (m : Stabilizer n),
      m ∈ terms.foldl (fun g t => insert_new t g) acc ↔ m ∈ acc ∨ m ∈ terms := by
  induction terms with
  | nil => simp
  | cons t ts ih =>
    intro acc m
    rw [List.foldl_cons, ih (insert_new t acc) m, mem_insert_new]
    simp only [List.mem_cons]
    tauto

lemma nodup_foldl_insert_new {n : ℕ} (terms : List (Stabilizer n)) :
    ∀ (acc : List (Stabilizer n)), acc.Nodup →
      (terms.foldl (fun g t => insert_new t g) acc).Nodup := by
  induction terms with
  | nil => exact fun acc h => h
  | cons t ts ih =>
    intro acc h
    exact ih (insert_new t acc) (nodup_insert_new t acc h)

/-- C8: on the very first time step (step counter 0 before the call), with a
non-empty batch of valid, pairwise non-overlapping pairs, the resulting
generator set is exactly the batch's measurement terms, deduplicated by value
equality — nothing is resolved or simplified away and nothing else is
added. -/
theorem C8_bootstrap_is_batch (rows cols : ℕ) (st : CodeState rows cols)
    (batch : List (ℕ × ℕ))
    (hstep : st.time_step = 0)
    (_hne : batch ≠ [])
    (hvalid : ∀ p ∈ batch, (is_valid_measurement rows cols p).1 = true)
    (_hdisjoint : batch.Pairwise
      (fun p p' => p.1 ≠ p'.1 ∧ p.1 ≠ p'.2 ∧ p.2 ≠ p'.1 ∧ p.2 ≠ p'.2)) :
    (run_time_step rows cols st batch).stabilizer_generators.Nodup
    ∧ ∀ m, m ∈ (run_time_step rows cols st batch).stabilizer_generators
        ↔ m ∈ batch.map (measurement_term rows cols) := by
  have hfilter : batch.filter (fun p => (is_valid_measurement rows cols p).1)
      = batch := List.filter_eq_self.mpr hvalid
  rw [run_time_step]
  simp only [hfilter]
  rw [update_stabilizers]
  rw [if_pos (by rw [hstep])]
  constructor
  · exact nodup_foldl_insert_new _ [] List.nodup_nil
  · intro m
    rw [mem_foldl_insert_new]
    simp

/-- Witness: `C8_bootstrap_is_batch` on the 5×5-vertex lattice with the
single-pair batch `[(1, 2)]`, specialised to the term `z12`. -/
theorem C8_bootstrap_is_batch_witness :
    (run_time_step 4 4 (initState 4 4) [(1, 2)]).stabilizer_generators.Nodup
    ∧ (z12 ∈ (run_time_step 4 4 (initState 4 4) [(1, 2)]).stabilizer_generators
        ↔ z12 ∈ [(1, 2)].map (measurement_term 4 4)) :=
  ⟨(C8_bootstrap_is_batch 4 4 (initState 4 4) [(1, 2)] rfl (by decide)
      (by decide) (by decide)).1,
    (C8_bootstrap_is_batch 4 4 (initState 4 4) [(1, 2)] rfl (by decide)
      (by decide) (by decide)).2 z12⟩

end Bootstrap

section Termination

open BaconShorCode

lemma find_pair_mem {rows cols : ℕ} :
    ∀ {A : List (Stabilizer (num_qubits rows cols))}
      {s1 s2 : Stabilizer (num_qubits rows cols)},
      find_pair rows cols A = some (s1, s2) → s1 ∈ A ∧ s2 ∈ A.erase s1 := by
  intro A
  induction A with
  | nil => intro s1 s2 h; simp [find_pair] at h
  | cons x rest ih =>
    intro s1 s2 h
    rw [find_pair] at h
    cases hf : rest.find? (fun s2 => pair_ok rows cols x s2) with
    | some s2' =>
      rw [hf] at h
      cases h
      refine ⟨List.mem_cons_self x rest, ?_⟩
      rw [List.erase_cons_head]
      exact List.mem_of_find?_eq_some hf
    | none =>
      rw [hf] at h
      obtain ⟨hm1, hm2⟩ := ih h
      refine ⟨List.mem_cons_of_mem x hm1, ?_⟩
      rw [List.erase_cons]
      by_cases hx : x = s1
      · rw [if_pos (by simp [hx])]
        exact List.mem_of_mem_erase hm2
      · rw [if_neg (by simp [hx])]
        exact List.mem_cons_of_mem x hm2

lemma find_pair_len {rows cols : ℕ}
    {A : List (Stabilizer (num_qubits rows cols))}
    {s1 s2 : Stabilizer (num_qubits rows cols)}
    (h : find_pair rows cols A = some (s1, s2)) :
    ((A.erase s1).erase s2).length + 2 = A.length := by
  obtain ⟨h1, h2⟩ := find_pair_mem h
  have e1 : (A.erase s1).length = A.length - 1 := List.length_erase_of_mem h1
  have e2 : ((A.erase s1).erase s2).length = (A.erase s1).length - 1 :=
    List.length_erase_of_mem h2
  have hpos : 1 ≤ (A.erase s1).length := List.length_pos.mpr (List.ne_nil_of_mem h2)
  omega

lemma adjust_loop_fuel {rows cols : ℕ}
    {measQs : List (Fin (num_qubits rows cols))} {measT : Pauli} :
    ∀ (nn : ℕ) (A gens : List (Stabilizer (num_qubits rows cols))) (fuel : ℕ),
      A.length ≤ nn → nn ≤ fuel →
      adjust_loop rows cols measQs measT fuel A gens
        = adjust_loop rows cols measQs measT nn A gens := by
  intro nn
  induction nn with
  | zero =>
    intro A gens fuel hA _
    have hAnil : A = [] := List.eq_nil_of_length_eq_zero (by omega)
    subst hAnil
    cases fuel with
    | zero => rfl
    | succ f => rfl
  | succ nn ih =>
    intro A gens fuel hA hf
    obtain ⟨f, rfl⟩ : ∃ f, fuel = f + 1 := ⟨fuel - 1, by omega⟩
    rw [adjust_loop, adjust_loop]
    cases hfp : find_pair rows cols A with
    | none => rfl
    | some p =>
      obtain ⟨s1, s2⟩ := p
      dsimp only
      have hlen := find_pair_len hfp
      by_cases htriv : (s1.multiply s2).is_trivial
      · rw [if_pos htriv, if_pos htriv]
        exact ih _ _ f (by omega) (by omega)
      · rw [if_neg htriv, if_neg htriv]
        have hlen2 : (if (s1.multiply s2).commutes_with measQs measT
              then (A.erase s1).erase s2
              else (A.erase s1).erase s2 ++ [s1.multiply s2]).length ≤ nn := by
          by_cases hc : (s1.multiply s2).commutes_with measQs measT
          · rw [if_pos hc]
            omega
          · rw [if_neg hc]
            rw [List.length_append]
            simp only [List.length_singleton]
            omega
        exact ih _ _ f hlen2 (by omega)

lemma adjust_loop_fixpoint {rows cols : ℕ}
    {measQs : List (Fin (num_qubits rows cols))} {measT : Pauli} :
    ∀ (nn : ℕ) (A gens : List (Stabilizer (num_qubits rows cols))),
      A.length ≤ nn →
      find_pair rows cols (adjust_loop rows cols measQs measT nn A gens).1 = none := by
  intro nn
  induction nn with
  | zero =>
    intro A gens hA
    have hAnil : A = [] := List.eq_nil_of_length_eq_zero (by omega)
    subst hAnil
    rfl
  | succ nn ih =>
    intro A gens hA
    rw [adjust_loop]
    cases hfp : find_pair rows cols A with
    | none => exact hfp
    | some p =>
      obtain ⟨s1, s2⟩ := p
      dsimp only
      have hlen := find_pair_len hfp
      by_cases htriv : (s1.multiply s2).is_trivial
      · rw [if_pos htriv]
        exact ih _ _ (by omega)
      · rw [if_neg htriv]
        apply ih
        by_cases hc : (s1.multiply s2).commutes_with measQs measT
        · rw [if_pos hc]
          omega
        · rw [if_neg hc]
          rw [List.length_append]
          simp only [List.length_singleton]
          omega

/-- C10: the anti-commutation combination loop of `adjust_stabilizers`
terminates: running it with fuel equal to the length of the initial
anti-commuting list already reaches a state in which no further combinable
pair exists, and any amount of extra fuel leaves the result unchanged (each
combination removes two stabilizers from the working list and re-inserts at
most one, so the working list strictly shrinks). -/
theorem C10_adjust_loop_terminates (rows cols : ℕ)
    (measQs : List (Fin (num_qubits rows cols))) (measT : Pauli)
    (A gens : List (Stabilizer (num_qubits rows cols))) (extra : ℕ) :
    adjust_loop rows cols measQs measT (A.length + extra) A gens
      = adjust_loop rows cols measQs measT A.length A gens
    ∧ find_pair rows cols
        (adjust_loop rows cols measQs measT A.length A gens).1 = none :=
  ⟨adjust_loop_fuel A.length A gens (A.length + extra) le_rfl (by omega),
    adjust_loop_fixpoint A.length A gens le_rfl⟩

end Termination

section Simplify

open BaconShorCode

lemma inner_reduce_id {n : ℕ} :
    ∀ (acc : List (Stabilizer n)) (g : Stabilizer n),
      (∀ r ∈ acc, Stabilizer.items_subset r g = false) →
      acc.foldl
        (fun g r => if Stabilizer.items_subset r g then g.multiply r else g) g = g := by
  intro acc
  induction acc with
  | nil => intro g _; rfl
  | cons r rs ih =>
    intro g h
    rw [List.foldl_cons, if_neg (by rw [h r (List.mem_cons_self r rs)]; simp)]
    exact ih g (fun r' hr' => h r' (List.mem_cons_of_mem r hr'))

lemma outer_reduce_append {n : ℕ} :
    ∀ (S acc : List (Stabilizer n)),
      (∀ g ∈ S, g.is_trivial = false) →
      (∀ r g, r ∈ acc → g ∈ S → Stabilizer.items_subset r g = false) →
      S.Pairwise (fun a b => Stabilizer.items_subset a b = false) →
      S.foldl
        (fun acc stab =>
          let stab' := acc.foldl
            (fun g r => if Stabilizer.items_subset r g then g.multiply r else g) stab
          if stab'.is_trivial then acc else acc ++ [stab'])
        acc = acc ++ S := by
  intro S
  induction S with
  | nil => intro acc _ _ _; simp
  | cons g S' ih =>
    intro acc hnt hsub hpw
    rw [List.foldl_cons]
    have hred : acc.foldl
        (fun g r => if Stabilizer.items_subset r g then g.multiply r else g) g = g :=
      inner_reduce_id acc g
        (fun r hr => hsub r g hr (List.mem_cons_self g S'))
    simp only [hred]
    rw [if_neg (by rw [hnt g (List.mem_cons_self g S')]; simp)]
    rw [ih (acc ++ [g])
      (fun g' hg' => hnt g' (List.mem_cons_of_mem g hg'))
      (fun r g' hr hg' => by
        rcases List.mem_append.mp hr with h | h
        · exact hsub r g' h (List.mem_cons_of_mem g hg')
        · rw [List.mem_singleton] at h
          subst h
          exact (List.pairwise_cons.mp hpw).1 g' hg')
      (List.pairwise_cons.mp hpw).2]
    simp

lemma simplify_of_antichain {n : ℕ} (L : List (Stabilizer n))
    (hnd : L.Nodup)
    (hnt : ∀ g ∈ L, g.is_trivial = false)
    (hac : ∀ r ∈ L, ∀ g ∈ L, r ≠ g → Stabilizer.items_subset r g = false) :
    simplify_stabilizers L = List.insertionSort weight_le L := by
  rw [simplify_stabilizers]
  have hperm : List.Perm (List.insertionSort weight_le L) L := List.perm_insertionSort _ _
  have hS_nodup : (List.insertionSort weight_le L).Nodup := hperm.nodup_iff.mpr hnd
  have hS_pw : (List.insertionSort weight_le L).Pairwise
      (fun a b => Stabilizer.items_subset a b = false) := by
    apply List.Pairwise.imp_of_mem ?_ hS_nodup
    intro a b hma hmb hne
    exact hac a (hperm.mem_iff.mp hma) b (hperm.mem_iff.mp hmb) hne
  have h := outer_reduce_append (List.insertionSort weight_le L) []
    (fun g hg => hnt g (hperm.mem_iff.mp hg))
    (fun r g hr _ => absurd hr (List.not_mem_nil r))
    hS_pw
  rw [h]
  simp

/-- C3 (amended): `simplify_stabilizers` need not be idempotent on an
arbitrary set of non-trivial terms, but it is idempotent (indeed the
identity up to the weight sort) on every duplicate-free set of non-trivial
terms in which no term's (qubit, symbol) item set is contained in another's;
on such sets one pass returns the set unchanged, so a second pass agrees
with the first. -/
theorem C3_simplify_idempotent_on_antichains {n : ℕ}
    (L : List (Stabilizer n))
    (hnd : L.Nodup)
    (hnt : ∀ g ∈ L, g.is_trivial = false)
    (hac : ∀ r ∈ L, ∀ g ∈ L, r ≠ g → Stabilizer.items_subset r g = false) :
    simplify_stabilizers (simplify_stabilizers L) = simplify_stabilizers L := by
  have hperm : List.Perm (List.insertionSort weight_le L) L := List.perm_insertionSort _ _
  have h1 := simplify_of_antichain L hnd hnt hac
  have h2 := simplify_of_antichain (List.insertionSort weight_le L)
    (hperm.nodup_iff.mpr hnd)
    (fun g hg => hnt g (hperm.mem_iff.mp hg))
    (fun r hr g hg hne =>
      hac r (hperm.mem_iff.mp hr) g (hperm.mem_iff.mp hg) hne)
  rw [h1, h2]
  exact (List.sorted_insertionSort weight_le L).insertionSort_eq

/-- Witness: `C3_simplify_idempotent_on_antichains` on the two-element
antichain `[{1:X, 2:X}, {3:X, 4:X}]`. -/
theorem C3_simplify_idempotent_on_antichains_witness :
    simplify_stabilizers (simplify_stabilizers [c3b, c3c])
      = simplify_stabilizers [c3b, c3c] :=
  C3_simplify_idempotent_on_antichains [c3b, c3c]
    (by decide) (by decide) (by decide)

/-- C3 (counterexample): on the set `{b, c, a}` with `b = {1:X, 2:X}`,
`c = {3:X, 4:X}`, `a = {1:X, 3:X, 4:X}` (all non-trivial), one simplification
pass yields `{b, c, {1:X}}` while a second pass further reduces `b` by the
new singleton, producing `{2:X}` — an element of the twice-simplified set
that is absent from the once-simplified set, so the pass is not
idempotent. -/
theorem C3_counterexample :
    c3x2 ∈ simplify_stabilizers (simplify_stabilizers c3L)
      ∧ c3x2 ∉ simplify_stabilizers c3L := by
  decide

end Simplify

section Scenario

open BaconShorCode

set_option maxRecDepth 1000000

/-- C1 (counterexample): on the 5×5-vertex lattice, `Z:{1,2}` is a generator
after step 1 with batch `[(1,2),(3,4),(6,7),(8,9)]`, but it does not survive
step 2 with batch `[(1,6),(2,7),(3,8),(4,9)]` (it anti-commutes with the new
`X:{1,6}` measurement and is combined away), and the resulting generator set
has 6 generators, not 8. -/
theorem C1_counterexample :
    z12 ∈ c1_state1.stabilizer_generators
      ∧ z12 ∉ c1_state2.stabilizer_generators
      ∧ c1_state2.stabilizer_generators.length = 6 := by
  decide

/-- C1 (amended): on the 5×5-vertex lattice, step 1 with pairs
`[(1,2),(3,4),(6,7),(8,9)]` yields exactly the generators
`{Z:{1,2}, Z:{3,4}, Z:{6,7}, Z:{8,9}}`; step 2 with pairs
`[(1,6),(2,7),(3,8),(4,9)]` does not preserve them: each pair of Z-generators
sharing a column pair with an anti-commuting X measurement is combined, and
the set after simplification is exactly
`{X:{1,6}, X:{2,7}, X:{3,8}, X:{4,9}, Z:{1,2,6,7}, Z:{3,4,8,9}}`
— 6 generators. -/
theorem C1_end_to_end :
    c1_state1.stabilizer_generators = [z12, z34, z67, z89]
      ∧ c1_state2.stabilizer_generators = [x16, x27, x38, x49, z1267, z3489] := by
  decide

/-- C6: the prototype resolver (unconditionally combining any two
anti-commuting generators) and the refined resolver (combining only
same-type generators of bounded row/column span) are not equivalent: on the
5×5-vertex lattice with step 1 `[(2,3),(3,4)]` and step 2 `[(3,8)]`, the
refined version discards both Z-generators (their joint column span is 3),
leaving `{X:{3,8}}`, while the prototype combines them into `Z:{2,4}`,
leaving `{X:{3,8}, Z:{2,4}}`. -/
theorem C6_resolvers_diverge :
    c6_refined.stabilizer_generators = [x38term]
      ∧ c6_prototype.stabilizer_generators = [x38term, z24]
      ∧ z24 ∈ c6_prototype.stabilizer_generators
      ∧ z24 ∉ c6_refined.stabilizer_generators := by
  decide

end Scenario
